import Mathlib

/-!
Verification of the ECIES module (ECIES.cpp): shared-secret derivation
(getECIESSecret), the HMAC-then-CBC envelope (encryptECIES) and its inverse
(decryptECIES).  Byte strings are lists of naturals; the vetted external
primitives (the elliptic-curve Diffie-Hellman, the SHA-256 key-derivation
hash, HMAC-SHA256 and the AES-256 block permutation) are parameters of the
development, while everything the module itself composes (CBC chaining,
PKCS-style padding, the wire layout, the validation order and the error
taxonomy) is defined explicitly.  Each operation also returns the trace of
primitive invocations it performs, so that ordering properties of the
validation steps can be stated.
-/

namespace ECIES

/-- Byte strings are modelled as lists of natural numbers. -/
abbrev Bytes := List Nat

/-- Length in bytes of the derived symmetric secret, 256 bits. -/
def ECIES_KEY_LENGTH : Nat := 256 / 8

/-- Block size in bytes of the symmetric cipher, AES-256-CBC. -/
def ECIES_ENC_BLK_SIZE : Nat := 128 / 8

/-- Key size in bytes of the symmetric cipher. -/
def ECIES_ENC_KEY_SIZE : Nat := 256 / 8

/-- Size in bytes of the HMAC-SHA256 authentication tag. -/
def ECIES_HMAC_SIZE : Nat := 256 / 8

/-- Primitive invocations recorded by the operations, in call order. -/
inductive Event where
  | ecdh
  | hmacCall
  | randIV
  | cipherInit
  | cipherUpdate
  | cipherFinal
  deriving DecidableEq, Repr

/-- Failure values, one per throw site of the source module. -/
inductive Err where
  | missingKey
  | noPrivateKey
  | ecdhFailed
  | insufficientEntropy
  | initCipher
  | encryptFail
  | ciphertextTooShort
  | extractHmac
  | extractPlaintext
  | badPadding
  | badHmac
  deriving DecidableEq, Repr

/-- Modelled from the spec: section 7 groups the two key-absence throw sites
of getECIESSecret, the null-key check and the no-private-scalar check, into
the single MissingKeyError kind of the error taxonomy. -/
def MissingKeyErrorKind (e : Err) : Prop :=
  e = Err.missingKey ∨ e = Err.noPrivateKey

/-- External cryptographic primitives the module composes: the public-point
map and raw Diffie-Hellman of the curve, the key-derivation hash, HMAC, and
the block cipher in both directions (keyed 16-byte block permutation). -/
structure Primitives where
  pubOf : Nat → Nat
  dh : Nat → Nat → Bytes
  kdf : Bytes → Bytes
  hmac : Bytes → Bytes → Bytes
  encB : Bytes → Bytes → Bytes
  decB : Bytes → Bytes → Bytes

/-- Well-formedness of the external primitives: Diffie-Hellman symmetry of
the curve, fixed digest lengths, and the block cipher being a 16-byte keyed
permutation with decB inverting encB. -/
structure Good (P : Primitives) : Prop where
  dh_symm : ∀ a b, P.dh a (P.pubOf b) = P.dh b (P.pubOf a)
  kdf_len : ∀ x, (P.kdf x).length = ECIES_KEY_LENGTH
  hmac_len : ∀ k d, (P.hmac k d).length = ECIES_HMAC_SIZE
  encB_len : ∀ k b, b.length = ECIES_ENC_BLK_SIZE → (P.encB k b).length = ECIES_ENC_BLK_SIZE
  dec_enc : ∀ k b, b.length = ECIES_ENC_BLK_SIZE → P.decB k (P.encB k b) = b

/-- An EC key held by one party: an optional private scalar plus the public
point (for a valid key the point matches the scalar). -/
structure ECKeyPair where
  privScalar : Option Nat
  pubPoint : Nat
  deriving DecidableEq, Repr

/-- A CKey wraps an optional EC key, mirroring the nullable pkey member. -/
structure CKey where
  pkey : Option ECKeyPair
  deriving DecidableEq, Repr

/-- Validity of a key: whenever a private scalar is held, the stored public
point is the point generated by that scalar. -/
def CKey.validFor (P : Primitives) (k : CKey) : Prop :=
  match k.pkey with
  | none => True
  | some kp =>
    match kp.privScalar with
    | none => True
    | some s => kp.pubPoint = P.pubOf s

/-- Whether the key holds a private scalar. -/
def CKey.hasPriv (k : CKey) : Bool :=
  match k.pkey with
  | none => false
  | some kp => kp.privScalar.isSome

/-- Pointwise exclusive-or of two byte strings, truncating to the shorter. -/
def xorBytes (a b : Bytes) : Bytes :=
  List.zipWith (fun x y => x ^^^ y) a b

/-- CBC encryption chaining, fuelled structurally by a block budget: each
step encrypts the next 16-byte chunk xored with the previous ciphertext
block, starting from the IV. -/
def cbcEncBlocks (E : Bytes → Bytes → Bytes) (key : Bytes) :
    Nat → Bytes → Bytes → Bytes
  | 0, _, _ => []
  | fuel + 1, prev, data =>
    match data with
    | [] => []
    | x :: xs =>
      let c := E key (xorBytes ((x :: xs).take ECIES_ENC_BLK_SIZE) prev)
      c ++ cbcEncBlocks E key fuel c ((x :: xs).drop ECIES_ENC_BLK_SIZE)

/-- CBC encryption of a byte string under a key and an IV. -/
def cbcEnc (E : Bytes → Bytes → Bytes) (key prev data : Bytes) : Bytes :=
  cbcEncBlocks E key data.length prev data

/-- CBC decryption chaining, fuelled structurally by a block budget: each
step deciphers the next 16-byte chunk and xors it with the previous
ciphertext block, starting from the IV. -/
def cbcDecBlocks (D : Bytes → Bytes → Bytes) (key : Bytes) :
    Nat → Bytes → Bytes → Bytes
  | 0, _, _ => []
  | fuel + 1, prev, data =>
    match data with
    | [] => []
    | x :: xs =>
      let cblk := (x :: xs).take ECIES_ENC_BLK_SIZE
      xorBytes (D key cblk) prev ++
        cbcDecBlocks D key fuel cblk ((x :: xs).drop ECIES_ENC_BLK_SIZE)

/-- CBC decryption of a byte string under a key and an IV. -/
def cbcDec (D : Bytes → Bytes → Bytes) (key prev data : Bytes) : Bytes :=
  cbcDecBlocks D key data.length prev data

/-- PKCS-style padding as applied by the cipher finalization on encryption:
always appends between 1 and 16 bytes, each equal to the pad length. -/
def pad16 (l : Bytes) : Bytes :=
  let p := ECIES_ENC_BLK_SIZE - l.length % ECIES_ENC_BLK_SIZE
  l ++ List.replicate p p

/-- PKCS-style padding validation and removal as performed by the cipher
finalization on decryption: reads the last byte as the pad length, requires
it to be between 1 and 16 and every pad byte to match, and strips it. -/
def unpad16 (l : Bytes) : Option Bytes :=
  match l.reverse with
  | [] => none
  | p :: _ =>
    if 1 ≤ p ∧ p ≤ ECIES_ENC_BLK_SIZE ∧ p ≤ l.length ∧
        l.drop (l.length - p) = List.replicate p p
    then some (l.take (l.length - p)) else none

/-- Modelled from the spec: the MAC comparison of the decrypt path (the
uint256 inequality operator, declared outside this module) is a
constant-time equality check, folding the or of the xor of every byte pair
with no early exit. -/
def ctEq (a b : Bytes) : Bool :=
  (a.length == b.length) &&
    ((List.zipWith (fun x y => x ^^^ y) a b).foldl (fun acc d => acc ||| d) 0 == 0)

/-- HMAC of a byte string under the shared secret, truncated to the tag
size exactly as the source copies ECIES_HMAC_SIZE bytes of the digest. -/
def makeHMAC (P : Primitives) (secret data : Bytes) : Bytes :=
  (P.hmac secret data).take ECIES_HMAC_SIZE

/-- Shared-secret derivation: requires both keys to be present and at least
one private scalar (preferring the own key when both are private), computes
the raw Diffie-Hellman point, passes it through the key-derivation hash and
checks the resulting length, exactly as getECIESSecret does. -/
def getECIESSecret (P : Primitives) (self other : CKey) :
    List Event × Except Err Bytes :=
  match self.pkey, other.pkey with
  | none, _ => ([], Except.error Err.missingKey)
  | some _, none => ([], Except.error Err.missingKey)
  | some kSelf, some kOther =>
    match kSelf.privScalar, kOther.privScalar with
    | some s, _ =>
      let key := P.kdf (P.dh s kOther.pubPoint)
      if key.length = ECIES_KEY_LENGTH then ([Event.ecdh], Except.ok key)
      else ([Event.ecdh], Except.error Err.ecdhFailed)
    | none, some s =>
      let key := P.kdf (P.dh s kSelf.pubPoint)
      if key.length = ECIES_KEY_LENGTH then ([Event.ecdh], Except.ok key)
      else ([Event.ecdh], Except.error Err.ecdhFailed)
    | none, none => ([], Except.error Err.noPrivateKey)

/-- Encryption: derive the secret, MAC the plaintext, then emit the fresh
IV in clear followed by the CBC encryption of MAC, plaintext and padding,
matching the update and finalization sequence of encryptECIES.  The IV is
the externally supplied randomness. -/
def encryptECIES (P : Primitives) (self other : CKey) (iv plaintext : Bytes) :
    List Event × Except Err Bytes :=
  match getECIESSecret P self other with
  | (tr, Except.error e) => (tr, Except.error e)
  | (tr, Except.ok secret) =>
    let hmac := makeHMAC P secret plaintext
    let body := cbcEnc P.encB secret iv (pad16 (hmac ++ plaintext))
    (tr ++ [Event.hmacCall, Event.randIV, Event.cipherInit,
            Event.cipherUpdate, Event.cipherUpdate, Event.cipherFinal],
     Except.ok (iv ++ body))

/-- Decryption: derive the secret, reject inputs shorter than IV plus MAC
plus one block before touching the cipher, split off the IV, CBC-decrypt
the body, let the finalization validate and strip the padding, and only
then recompute and compare the MAC, in the exact order of decryptECIES. -/
def decryptECIES (P : Primitives) (self other : CKey) (ciphertext : Bytes) :
    List Event × Except Err Bytes :=
  match getECIESSecret P self other with
  | (tr, Except.error e) => (tr, Except.error e)
  | (tr, Except.ok secret) =>
    if ciphertext.length < 2 * ECIES_ENC_BLK_SIZE + ECIES_HMAC_SIZE then
      (tr, Except.error Err.ciphertextTooShort)
    else
      let iv := ciphertext.take ECIES_ENC_BLK_SIZE
      let body := ciphertext.drop ECIES_ENC_BLK_SIZE
      let dec := cbcDec P.decB secret iv body
      let hmacX := dec.take ECIES_HMAC_SIZE
      let tr2 := tr ++ [Event.cipherInit, Event.cipherUpdate,
                        Event.cipherUpdate, Event.cipherFinal]
      match (if body.length % ECIES_ENC_BLK_SIZE = 0 then unpad16 dec else none) with
      | none => (tr2, Except.error Err.badPadding)
      | some stripped =>
        let plaintext := stripped.drop ECIES_HMAC_SIZE
        if ctEq hmacX (makeHMAC P secret plaintext) then
          (tr2 ++ [Event.hmacCall], Except.ok plaintext)
        else
          (tr2 ++ [Event.hmacCall], Except.error Err.badHmac)

/-- Concrete primitive instance used for witnesses: the curve is the
naturals under multiplication, the key-derivation hash pads or truncates to
32 bytes, HMAC is the zero tag, and the block permutation is the identity. -/
def P0 : Primitives where
  pubOf := fun s => s
  dh := fun s p => List.replicate ECIES_KEY_LENGTH ((s * p) % 256)
  kdf := fun x => (x ++ List.replicate ECIES_KEY_LENGTH 0).take ECIES_KEY_LENGTH
  hmac := fun _ _ => List.replicate ECIES_HMAC_SIZE 0
  encB := fun _ b => b
  decB := fun _ b => b

/-- Concrete sender key holding a private scalar. -/
def kS : CKey := ⟨some ⟨some 3, 3⟩⟩

/-- Concrete recipient key holding a private scalar. -/
def kR : CKey := ⟨some ⟨some 5, 5⟩⟩

/-- Concrete sender key holding only the public point. -/
def kPubS : CKey := ⟨some ⟨none, 3⟩⟩

/-- Concrete recipient key holding only the public point. -/
def kPubR : CKey := ⟨some ⟨none, 5⟩⟩

/-- Concrete all-zero IV. -/
def iv0 : Bytes := List.replicate ECIES_ENC_BLK_SIZE 0

/-- Appending one copy of an element to a replicate extends the count. -/
theorem replicate_append_one (n : Nat) (a : Nat) :
    List.replicate n a ++ [a] = List.replicate (n + 1) a := by
  induction n with
  | zero => rfl
  | succ m ih => simp only [List.replicate_succ, List.cons_append, ih]

/-- Reversal fixes replicated lists. -/
theorem reverse_replicate (n : Nat) (a : Nat) :
    (List.replicate n a).reverse = List.replicate n a := by
  induction n with
  | zero => rfl
  | succ m ih =>
    rw [List.replicate_succ, List.reverse_cons, ih, replicate_append_one,
      List.replicate_succ]

/-- Length of the pointwise xor is the shorter length. -/
theorem xorBytes_length (a b : Bytes) :
    (xorBytes a b).length = min a.length b.length := by
  simp [xorBytes]

/-- Xoring with the same byte string twice cancels. -/
theorem xorBytes_cancel : ∀ (a b : Bytes), a.length = b.length →
    xorBytes (xorBytes a b) b = a
  | [], _, _ => by simp [xorBytes]
  | x :: xs, [], h => by simp at h
  | x :: xs, y :: ys, h => by
    have h2 : xs.length = ys.length := by simpa using h
    have ih := xorBytes_cancel xs ys h2
    simp only [xorBytes, List.zipWith_cons_cons] at ih ⊢
    rw [Nat.xor_assoc, Nat.xor_self, Nat.xor_zero, ih]

/-- A bitwise or of naturals vanishes exactly when both sides vanish. -/
theorem or_eq_zero_iff (a b : Nat) : a ||| b = 0 ↔ a = 0 ∧ b = 0 := by
  constructor
  · intro h
    have hc : ∀ i, Nat.testBit a i = false ∧ Nat.testBit b i = false := by
      intro i
      have hb := congrArg (fun n => Nat.testBit n i) h
      simpa [Nat.testBit_lor] using hb
    exact ⟨Nat.zero_of_testBit_eq_false (fun i => (hc i).1),
      Nat.zero_of_testBit_eq_false (fun i => (hc i).2)⟩
  · rintro ⟨rfl, rfl⟩; rfl

/-- Folding bitwise or over a list vanishes exactly when the seed and every
element vanish. -/
theorem foldl_or_eq_zero : ∀ (l : List Nat) (acc : Nat),
    (l.foldl (fun a d => a ||| d) acc = 0) ↔ (acc = 0 ∧ ∀ d ∈ l, d = 0)
  | [], acc => by simp
  | x :: xs, acc => by
    rw [List.foldl_cons, foldl_or_eq_zero xs (acc ||| x), or_eq_zero_iff,
      List.forall_mem_cons]
    tauto

/-- The pointwise xor of two equal-length byte strings is all zero exactly
when the strings are equal. -/
theorem zipXor_all_zero : ∀ (a b : Bytes), a.length = b.length →
    ((∀ d ∈ List.zipWith (fun x y => x ^^^ y) a b, d = 0) ↔ a = b)
  | [], [], _ => by simp
  | [], y :: ys, h => by simp at h
  | x :: xs, [], h => by simp at h
  | x :: xs, y :: ys, h => by
    have h2 : xs.length = ys.length := by simpa using h
    rw [List.zipWith_cons_cons, List.forall_mem_cons, zipXor_all_zero xs ys h2,
      Nat.xor_eq_zero]
    simp

/-- CBC encryption of the empty string is empty at any fuel. -/
theorem cbcEncBlocks_nil (E : Bytes → Bytes → Bytes) (key : Bytes) (fuel : Nat)
    (prev : Bytes) : cbcEncBlocks E key fuel prev [] = [] := by
  cases fuel <;> rfl

/-- CBC decryption of the empty string is empty at any fuel. -/
theorem cbcDecBlocks_nil (D : Bytes → Bytes → Bytes) (key : Bytes) (fuel : Nat)
    (prev : Bytes) : cbcDecBlocks D key fuel prev [] = [] := by
  cases fuel <;> rfl

/-- CBC encryption is independent of the fuel once it covers the input. -/
theorem cbcEncBlocks_congr (E : Bytes → Bytes → Bytes) (key : Bytes) :
    ∀ (f1 f2 : Nat) (prev data : Bytes), data.length ≤ f1 → data.length ≤ f2 →
      cbcEncBlocks E key f1 prev data = cbcEncBlocks E key f2 prev data
  | 0, f2, prev, data, h1, _ => by
    have hd : data = [] := List.length_eq_zero.mp (Nat.le_zero.mp h1)
    subst hd
    rw [cbcEncBlocks_nil, cbcEncBlocks_nil]
  | g + 1, f2, prev, [], _, _ => by rw [cbcEncBlocks_nil, cbcEncBlocks_nil]
  | g + 1, 0, prev, x :: xs, h1, h2 => by simp at h2
  | g + 1, h + 1, prev, x :: xs, h1, h2 => by
    simp only [cbcEncBlocks]
    congr 1
    apply cbcEncBlocks_congr E key g h
    · simp only [List.length_drop, List.length_cons, ECIES_ENC_BLK_SIZE] at h1 ⊢
      omega
    · simp only [List.length_drop, List.length_cons, ECIES_ENC_BLK_SIZE] at h2 ⊢
      omega

/-- CBC decryption is independent of the fuel once it covers the input. -/
theorem cbcDecBlocks_congr (D : Bytes → Bytes → Bytes) (key : Bytes) :
    ∀ (f1 f2 : Nat) (prev data : Bytes), data.length ≤ f1 → data.length ≤ f2 →
      cbcDecBlocks D key f1 prev data = cbcDecBlocks D key f2 prev data
  | 0, f2, prev, data, h1, _ => by
    have hd : data = [] := List.length_eq_zero.mp (Nat.le_zero.mp h1)
    subst hd
    rw [cbcDecBlocks_nil, cbcDecBlocks_nil]
  | g + 1, f2, prev, [], _, _ => by rw [cbcDecBlocks_nil, cbcDecBlocks_nil]
  | g + 1, 0, prev, x :: xs, h1, h2 => by simp at h2
  | g + 1, h + 1, prev, x :: xs, h1, h2 => by
    simp only [cbcDecBlocks]
    congr 1
    apply cbcDecBlocks_congr D key g h
    · simp only [List.length_drop, List.length_cons, ECIES_ENC_BLK_SIZE] at h1 ⊢
      omega
    · simp only [List.length_drop, List.length_cons, ECIES_ENC_BLK_SIZE] at h2 ⊢
      omega

/-- Peeling one full block off a CBC encryption. -/
theorem cbcEnc_block (E : Bytes → Bytes → Bytes) (key prev blk rest : Bytes)
    (hb : blk.length = ECIES_ENC_BLK_SIZE) :
    cbcEnc E key prev (blk ++ rest) =
      E key (xorBytes blk prev) ++
        cbcEnc E key (E key (xorBytes blk prev)) rest := by
  rcases blk with _ | ⟨x, xs⟩
  · simp [ECIES_ENC_BLK_SIZE] at hb
  · show cbcEnc E key prev (x :: (xs ++ rest)) = _
    unfold cbcEnc
    rw [show (x :: (xs ++ rest)).length = (xs ++ rest).length + 1 from rfl]
    simp only [cbcEncBlocks]
    rw [show (x :: (xs ++ rest)) = (x :: xs) ++ rest from rfl,
      List.take_left' hb, List.drop_left' hb]
    congr 1
    apply cbcEncBlocks_congr
    · simp only [List.length_append]; omega
    · exact Nat.le_refl _

/-- Peeling one full block off a CBC decryption. -/
theorem cbcDec_block (D : Bytes → Bytes → Bytes) (key prev blk rest : Bytes)
    (hb : blk.length = ECIES_ENC_BLK_SIZE) :
    cbcDec D key prev (blk ++ rest) =
      xorBytes (D key blk) prev ++ cbcDec D key blk rest := by
  rcases blk with _ | ⟨x, xs⟩
  · simp [ECIES_ENC_BLK_SIZE] at hb
  · show cbcDec D key prev (x :: (xs ++ rest)) = _
    unfold cbcDec
    rw [show (x :: (xs ++ rest)).length = (xs ++ rest).length + 1 from rfl]
    simp only [cbcDecBlocks]
    rw [show (x :: (xs ++ rest)) = (x :: xs) ++ rest from rfl,
      List.take_left' hb, List.drop_left' hb]
    congr 1
    apply cbcDecBlocks_congr
    · simp only [List.length_append]; omega
    · exact Nat.le_refl _

/-- CBC encryption preserves the length of block-aligned input, given a
length-preserving block cipher and a one-block IV; fuelled form. -/
theorem cbcEnc_length_aux (E : Bytes → Bytes → Bytes) (key : Bytes)
    (hE : ∀ b, b.length = ECIES_ENC_BLK_SIZE →
      (E key b).length = ECIES_ENC_BLK_SIZE) :
    ∀ (n : Nat) (data prev : Bytes), data.length ≤ n →
      ECIES_ENC_BLK_SIZE ∣ data.length → prev.length = ECIES_ENC_BLK_SIZE →
      (cbcEnc E key prev data).length = data.length := by
  intro n
  induction n with
  | zero =>
    intro data prev h1 _ _
    have hd : data = [] := List.length_eq_zero.mp (Nat.le_zero.mp h1)
    subst hd
    simp [cbcEnc, cbcEncBlocks_nil]
  | succ g ih =>
    intro data prev h1 hdvd hprev
    rcases data with _ | ⟨x, xs⟩
    · simp [cbcEnc, cbcEncBlocks_nil]
    · have h16 : ECIES_ENC_BLK_SIZE ≤ (x :: xs).length := by
        rcases hdvd with ⟨k, hk⟩
        rcases k with _ | k
        · simp at hk
        · simp only [ECIES_ENC_BLK_SIZE] at hk ⊢
          omega
      have hblk : ((x :: xs).take ECIES_ENC_BLK_SIZE).length = ECIES_ENC_BLK_SIZE := by
        simp only [List.length_take]
        omega
      have hxor : (xorBytes ((x :: xs).take ECIES_ENC_BLK_SIZE) prev).length =
          ECIES_ENC_BLK_SIZE := by
        rw [xorBytes_length, hblk, hprev, Nat.min_self]
      conv_lhs => rw [← List.take_append_drop ECIES_ENC_BLK_SIZE (x :: xs)]
      rw [cbcEnc_block E key prev _ _ hblk, List.length_append]
      rw [ih ((x :: xs).drop ECIES_ENC_BLK_SIZE)
        (E key (xorBytes ((x :: xs).take ECIES_ENC_BLK_SIZE) prev))
        (by simp only [List.length_drop, List.length_cons,
              ECIES_ENC_BLK_SIZE] at h1 ⊢
            omega)
        (by simp only [List.length_drop]
            exact Nat.dvd_sub' hdvd (Dvd.intro 1 (by ring)))
        (hE _ hxor)]
      rw [hE _ hxor]
      simp only [List.length_drop]
      omega

/-- CBC encryption preserves the length of block-aligned input. -/
theorem cbcEnc_length (E : Bytes → Bytes → Bytes) (key : Bytes)
    (hE : ∀ b, b.length = ECIES_ENC_BLK_SIZE →
      (E key b).length = ECIES_ENC_BLK_SIZE)
    (data prev : Bytes) (hdvd : ECIES_ENC_BLK_SIZE ∣ data.length)
    (hprev : prev.length = ECIES_ENC_BLK_SIZE) :
    (cbcEnc E key prev data).length = data.length :=
  cbcEnc_length_aux E key hE data.length data prev (Nat.le_refl _) hdvd hprev

/-- CBC decryption inverts CBC encryption on block-aligned input, given the
inverse pair of block permutations and a one-block IV; fuelled form. -/
theorem cbcDec_cbcEnc_aux (E D : Bytes → Bytes → Bytes) (key : Bytes)
    (hED : ∀ b, b.length = ECIES_ENC_BLK_SIZE → D key (E key b) = b)
    (hE : ∀ b, b.length = ECIES_ENC_BLK_SIZE →
      (E key b).length = ECIES_ENC_BLK_SIZE) :
    ∀ (n : Nat) (data prev : Bytes), data.length ≤ n →
      ECIES_ENC_BLK_SIZE ∣ data.length → prev.length = ECIES_ENC_BLK_SIZE →
      cbcDec D key prev (cbcEnc E key prev data) = data := by
  intro n
  induction n with
  | zero =>
    intro data prev h1 _ _
    have hd : data = [] := List.length_eq_zero.mp (Nat.le_zero.mp h1)
    subst hd
    simp [cbcEnc, cbcDec, cbcEncBlocks_nil, cbcDecBlocks_nil]
  | succ g ih =>
    intro data prev h1 hdvd hprev
    rcases data with _ | ⟨x, xs⟩
    · simp [cbcEnc, cbcDec, cbcEncBlocks_nil, cbcDecBlocks_nil]
    · have h16 : ECIES_ENC_BLK_SIZE ≤ (x :: xs).length := by
        rcases hdvd with ⟨k, hk⟩
        rcases k with _ | k
        · simp at hk
        · simp only [ECIES_ENC_BLK_SIZE] at hk ⊢
          omega
      have hblk : ((x :: xs).take ECIES_ENC_BLK_SIZE).length = ECIES_ENC_BLK_SIZE := by
        simp only [List.length_take]
        omega
      have hxor : (xorBytes ((x :: xs).take ECIES_ENC_BLK_SIZE) prev).length =
          ECIES_ENC_BLK_SIZE := by
        rw [xorBytes_length, hblk, hprev, Nat.min_self]
      conv_lhs => rw [← List.take_append_drop ECIES_ENC_BLK_SIZE (x :: xs)]
      rw [cbcEnc_block E key prev _ _ hblk,
        cbcDec_block D key prev _ _ (hE _ hxor),
        hED _ hxor,
        xorBytes_cancel _ prev (by rw [hblk, hprev]),
        ih ((x :: xs).drop ECIES_ENC_BLK_SIZE)
          (E key (xorBytes ((x :: xs).take ECIES_ENC_BLK_SIZE) prev))
          (by simp only [List.length_drop, List.length_cons,
                ECIES_ENC_BLK_SIZE] at h1 ⊢
              omega)
          (by simp only [List.length_drop]
              exact Nat.dvd_sub' hdvd (Dvd.intro 1 (by ring)))
          (hE _ hxor),
        List.take_append_drop]

/-- CBC decryption inverts CBC encryption on block-aligned input. -/
theorem cbcDec_cbcEnc (E D : Bytes → Bytes → Bytes) (key : Bytes)
    (hED : ∀ b, b.length = ECIES_ENC_BLK_SIZE → D key (E key b) = b)
    (hE : ∀ b, b.length = ECIES_ENC_BLK_SIZE →
      (E key b).length = ECIES_ENC_BLK_SIZE)
    (data prev : Bytes) (hdvd : ECIES_ENC_BLK_SIZE ∣ data.length)
    (hprev : prev.length = ECIES_ENC_BLK_SIZE) :
    cbcDec D key prev (cbcEnc E key prev data) = data :=
  cbcDec_cbcEnc_aux E D key hED hE data.length data prev (Nat.le_refl _) hdvd hprev

/-- The constant-time comparison decides equality of byte strings. -/
theorem ctEq_iff (a b : Bytes) : ctEq a b = true ↔ a = b := by
  simp only [ctEq, Bool.and_eq_true, beq_iff_eq]
  constructor
  · rintro ⟨h1, h2⟩
    exact (zipXor_all_zero a b h1).mp ((foldl_or_eq_zero _ 0).mp h2).2
  · rintro rfl
    exact ⟨rfl, (foldl_or_eq_zero _ 0).mpr ⟨rfl, (zipXor_all_zero a a rfl).mpr rfl⟩⟩

/-- Padding always produces the next multiple of the block size. -/
theorem pad16_length (l : Bytes) :
    (pad16 l).length =
      ECIES_ENC_BLK_SIZE * (l.length / ECIES_ENC_BLK_SIZE + 1) := by
  simp only [pad16, List.length_append, List.length_replicate, ECIES_ENC_BLK_SIZE]
  omega

/-- Padded lengths are block-aligned. -/
theorem pad16_dvd (l : Bytes) : ECIES_ENC_BLK_SIZE ∣ (pad16 l).length := by
  rw [pad16_length]
  exact Dvd.intro _ rfl

/-- Padding removal inverts padding. -/
theorem unpad16_pad16 (l : Bytes) : unpad16 (pad16 l) = some l := by
  have hmod : l.length % ECIES_ENC_BLK_SIZE < ECIES_ENC_BLK_SIZE :=
    Nat.mod_lt _ (by simp [ECIES_ENC_BLK_SIZE])
  set p := ECIES_ENC_BLK_SIZE - l.length % ECIES_ENC_BLK_SIZE with hp
  have hp1 : 1 ≤ p := by omega
  have hp16 : p ≤ ECIES_ENC_BLK_SIZE := by omega
  obtain ⟨k, hk⟩ : ∃ k, p = k + 1 := ⟨p - 1, by omega⟩
  have hpad : pad16 l = l ++ List.replicate p p := rfl
  have hrev : (pad16 l).reverse = p :: (List.replicate k p ++ l.reverse) := by
    rw [hpad, List.reverse_append, reverse_replicate, hk, List.replicate_succ,
      List.cons_append]
  have hlen : (pad16 l).length = l.length + p := by
    rw [hpad, List.length_append, List.length_replicate]
  rw [unpad16, hrev]
  have hcond : 1 ≤ p ∧ p ≤ ECIES_ENC_BLK_SIZE ∧ p ≤ (pad16 l).length ∧
      (pad16 l).drop ((pad16 l).length - p) = List.replicate p p := by
    refine ⟨hp1, hp16, by omega, ?_⟩
    rw [hlen, Nat.add_sub_cancel, hpad, List.drop_left' rfl]
  show (if 1 ≤ p ∧ p ≤ ECIES_ENC_BLK_SIZE ∧ p ≤ (pad16 l).length ∧
      (pad16 l).drop ((pad16 l).length - p) = List.replicate p p
    then some ((pad16 l).take ((pad16 l).length - p)) else none) = some l
  rw [if_pos hcond, hlen, Nat.add_sub_cancel, hpad, List.take_left' rfl]

/-- The MAC always has the tag size. -/
theorem makeHMAC_length (P : Primitives) (hG : Good P) (s d : Bytes) :
    (makeHMAC P s d).length = ECIES_HMAC_SIZE := by
  simp [makeHMAC, List.length_take, hG.hmac_len]

/-- Secret derivation succeeds with a 32-byte secret and exactly one
Diffie-Hellman invocation whenever both keys are present and at least one
private scalar is held. -/
theorem getECIESSecret_ok (P : Primitives) (hG : Good P) (a b : CKey)
    (hpa : a.pkey.isSome = true) (hpb : b.pkey.isSome = true)
    (hpriv : a.hasPriv = true ∨ b.hasPriv = true) :
    ∃ s : Bytes, s.length = ECIES_KEY_LENGTH ∧
      getECIESSecret P a b = ([Event.ecdh], Except.ok s) := by
  obtain ⟨kpa, hka⟩ := Option.isSome_iff_exists.mp hpa
  obtain ⟨kpb, hkb⟩ := Option.isSome_iff_exists.mp hpb
  cases hsa : kpa.privScalar with
  | some s =>
    refine ⟨P.kdf (P.dh s kpb.pubPoint), hG.kdf_len _, ?_⟩
    simp [getECIESSecret, hka, hkb, hsa, hG.kdf_len]
  | none =>
    cases hsb : kpb.privScalar with
    | some t =>
      refine ⟨P.kdf (P.dh t kpa.pubPoint), hG.kdf_len _, ?_⟩
      simp [getECIESSecret, hka, hkb, hsa, hsb, hG.kdf_len]
    | none =>
      exfalso
      rcases hpriv with h | h <;>
        simp [CKey.hasPriv, hka, hkb, hsa, hsb] at h

/-- Secret derivation is symmetric in the two keys for valid keys. -/
theorem getECIESSecret_symm_aux (P : Primitives) (hG : Good P) (a b : CKey)
    (ha : a.validFor P) (hb : b.validFor P) :
    getECIESSecret P a b = getECIESSecret P b a := by
  cases hka : a.pkey with
  | none =>
    cases hkb : b.pkey with
    | none => simp [getECIESSecret, hka, hkb]
    | some kpb => simp [getECIESSecret, hka, hkb]
  | some kpa =>
    cases hkb : b.pkey with
    | none => simp [getECIESSecret, hka, hkb]
    | some kpb =>
      cases hsa : kpa.privScalar with
      | some s =>
        cases hsb : kpb.privScalar with
        | some t =>
          have ha2 : kpa.pubPoint = P.pubOf s := by
            simpa [CKey.validFor, hka, hsa] using ha
          have hb2 : kpb.pubPoint = P.pubOf t := by
            simpa [CKey.validFor, hkb, hsb] using hb
          simp only [getECIESSecret, hka, hkb, hsa, hsb, ha2, hb2,
            hG.dh_symm s t]
        | none => simp [getECIESSecret, hka, hkb, hsa, hsb]
      | none =>
        cases hsb : kpb.privScalar with
        | some t => simp [getECIESSecret, hka, hkb, hsa, hsb]
        | none => simp [getECIESSecret, hka, hkb, hsa, hsb]

/-- Encryption on a derived secret produces the IV followed by the CBC
encryption of MAC, plaintext and padding. -/
theorem encryptECIES_eq (P : Primitives) (a b : CKey) (iv pt s : Bytes)
    (hs : getECIESSecret P a b = ([Event.ecdh], Except.ok s)) :
    encryptECIES P a b iv pt =
      ([Event.ecdh, Event.hmacCall, Event.randIV, Event.cipherInit,
        Event.cipherUpdate, Event.cipherUpdate, Event.cipherFinal],
       Except.ok (iv ++ cbcEnc P.encB s iv (pad16 (makeHMAC P s pt ++ pt)))) := by
  simp [encryptECIES, hs]

/-- Decryption stops with the length error, after the secret derivation but
before any cipher step, on inputs shorter than IV plus MAC plus one block. -/
theorem decryptECIES_short_path (P : Primitives) (a b : CKey) (ct s : Bytes)
    (hs : getECIESSecret P a b = ([Event.ecdh], Except.ok s))
    (hlen : ct.length < 2 * ECIES_ENC_BLK_SIZE + ECIES_HMAC_SIZE) :
    decryptECIES P a b ct = ([Event.ecdh], Except.error Err.ciphertextTooShort) := by
  simp [decryptECIES, hs, hlen]

/-- Decryption stops with the padding error, without ever computing a MAC,
when the cipher finalization rejects the padding. -/
theorem decryptECIES_badPadding_path (P : Primitives) (a b : CKey)
    (ct s : Bytes)
    (hs : getECIESSecret P a b = ([Event.ecdh], Except.ok s))
    (hlen : ¬ (ct.length < 2 * ECIES_ENC_BLK_SIZE + ECIES_HMAC_SIZE))
    (hbad : (if (ct.drop ECIES_ENC_BLK_SIZE).length % ECIES_ENC_BLK_SIZE = 0
        then unpad16 (cbcDec P.decB s (ct.take ECIES_ENC_BLK_SIZE)
          (ct.drop ECIES_ENC_BLK_SIZE))
        else none) = none) :
    decryptECIES P a b ct =
      ([Event.ecdh, Event.cipherInit, Event.cipherUpdate, Event.cipherUpdate,
        Event.cipherFinal], Except.error Err.badPadding) := by
  simp only [decryptECIES, hs, if_neg hlen]
  rw [hbad]
  simp

/-- Decryption on a well-padded input reduces to the MAC comparison between
the first decrypted block pair and the recomputed MAC of the stripped
plaintext. -/
theorem decryptECIES_ok_path (P : Primitives) (a b : CKey)
    (ct s stripped : Bytes)
    (hs : getECIESSecret P a b = ([Event.ecdh], Except.ok s))
    (hlen : ¬ (ct.length < 2 * ECIES_ENC_BLK_SIZE + ECIES_HMAC_SIZE))
    (hstr : (if (ct.drop ECIES_ENC_BLK_SIZE).length % ECIES_ENC_BLK_SIZE = 0
        then unpad16 (cbcDec P.decB s (ct.take ECIES_ENC_BLK_SIZE)
          (ct.drop ECIES_ENC_BLK_SIZE))
        else none) = some stripped) :
    decryptECIES P a b ct =
      (if ctEq ((cbcDec P.decB s (ct.take ECIES_ENC_BLK_SIZE)
            (ct.drop ECIES_ENC_BLK_SIZE)).take ECIES_HMAC_SIZE)
          (makeHMAC P s (stripped.drop ECIES_HMAC_SIZE))
       then ([Event.ecdh, Event.cipherInit, Event.cipherUpdate,
              Event.cipherUpdate, Event.cipherFinal, Event.hmacCall],
             Except.ok (stripped.drop ECIES_HMAC_SIZE))
       else ([Event.ecdh, Event.cipherInit, Event.cipherUpdate,
              Event.cipherUpdate, Event.cipherFinal, Event.hmacCall],
             Except.error Err.badHmac)) := by
  simp only [decryptECIES, hs, if_neg hlen]
  rw [hstr]
  simp

/-- Encryption succeeds on a derived secret and the ciphertext length is
the block size plus the padded length of MAC and plaintext. -/
theorem encrypt_length_aux (P : Primitives) (hG : Good P) (a b : CKey)
    (iv pt s : Bytes)
    (hs : getECIESSecret P a b = ([Event.ecdh], Except.ok s))
    (hiv : iv.length = ECIES_ENC_BLK_SIZE) :
    ∃ ct : Bytes, (encryptECIES P a b iv pt).2 = Except.ok ct ∧
      ct.length = ECIES_ENC_BLK_SIZE +
        ECIES_ENC_BLK_SIZE *
          ((ECIES_HMAC_SIZE + pt.length) / ECIES_ENC_BLK_SIZE + 1) := by
  refine ⟨iv ++ cbcEnc P.encB s iv (pad16 (makeHMAC P s pt ++ pt)), ?_, ?_⟩
  · rw [encryptECIES_eq P a b iv pt s hs]
  · rw [List.length_append, hiv,
      cbcEnc_length P.encB s (hG.encB_len s) _ iv (pad16_dvd _) hiv,
      pad16_length, List.length_append, makeHMAC_length P hG s pt]

/-- Decrypting the encryption of a plaintext with the same derived secret
recovers that plaintext. -/
theorem decryptECIES_of_encrypt (P : Primitives) (hG : Good P) (b a : CKey)
    (s iv pt : Bytes) (hiv : iv.length = ECIES_ENC_BLK_SIZE)
    (hs : getECIESSecret P b a = ([Event.ecdh], Except.ok s)) :
    (decryptECIES P b a
      (iv ++ cbcEnc P.encB s iv (pad16 (makeHMAC P s pt ++ pt)))).2 =
      Except.ok pt := by
  have hmaclen : (makeHMAC P s pt).length = ECIES_HMAC_SIZE :=
    makeHMAC_length P hG s pt
  have hdvd : ECIES_ENC_BLK_SIZE ∣ (pad16 (makeHMAC P s pt ++ pt)).length :=
    pad16_dvd _
  have hbodylen : (cbcEnc P.encB s iv (pad16 (makeHMAC P s pt ++ pt))).length =
      (pad16 (makeHMAC P s pt ++ pt)).length :=
    cbcEnc_length P.encB s (hG.encB_len s) _ iv hdvd hiv
  have happlen : (makeHMAC P s pt ++ pt).length = ECIES_HMAC_SIZE + pt.length := by
    rw [List.length_append, hmaclen]
  have hge : ¬ ((iv ++ cbcEnc P.encB s iv
        (pad16 (makeHMAC P s pt ++ pt))).length <
      2 * ECIES_ENC_BLK_SIZE + ECIES_HMAC_SIZE) := by
    rw [List.length_append, hiv, hbodylen, pad16_length, happlen]
    simp only [ECIES_ENC_BLK_SIZE, ECIES_HMAC_SIZE]
    omega
  have htake : (iv ++ cbcEnc P.encB s iv
      (pad16 (makeHMAC P s pt ++ pt))).take ECIES_ENC_BLK_SIZE = iv :=
    List.take_left' hiv
  have hdrop : (iv ++ cbcEnc P.encB s iv
      (pad16 (makeHMAC P s pt ++ pt))).drop ECIES_ENC_BLK_SIZE =
      cbcEnc P.encB s iv (pad16 (makeHMAC P s pt ++ pt)) :=
    List.drop_left' hiv
  have hdec : cbcDec P.decB s iv
      (cbcEnc P.encB s iv (pad16 (makeHMAC P s pt ++ pt))) =
      pad16 (makeHMAC P s pt ++ pt) :=
    cbcDec_cbcEnc P.encB P.decB s (hG.dec_enc s) (hG.encB_len s) _ iv hdvd hiv
  have hmod : (cbcEnc P.encB s iv
      (pad16 (makeHMAC P s pt ++ pt))).length % ECIES_ENC_BLK_SIZE = 0 := by
    rw [hbodylen]
    obtain ⟨k, hk⟩ := hdvd
    rw [hk]
    exact Nat.mul_mod_right _ _
  have hstr : (if ((iv ++ cbcEnc P.encB s iv
          (pad16 (makeHMAC P s pt ++ pt))).drop
            ECIES_ENC_BLK_SIZE).length % ECIES_ENC_BLK_SIZE = 0
      then unpad16 (cbcDec P.decB s
        ((iv ++ cbcEnc P.encB s iv
          (pad16 (makeHMAC P s pt ++ pt))).take ECIES_ENC_BLK_SIZE)
        ((iv ++ cbcEnc P.encB s iv
          (pad16 (makeHMAC P s pt ++ pt))).drop ECIES_ENC_BLK_SIZE))
      else none) = some (makeHMAC P s pt ++ pt) := by
    rw [hdrop, htake, hdec, if_pos hmod, unpad16_pad16]
  rw [decryptECIES_ok_path P b a _ s (makeHMAC P s pt ++ pt) hs hge hstr,
    hdrop, htake, hdec]
  have htk : (pad16 (makeHMAC P s pt ++ pt)).take ECIES_HMAC_SIZE =
      makeHMAC P s pt := by
    simp only [pad16]
    rw [List.append_assoc, List.take_left' hmaclen]
  rw [htk, List.drop_left' hmaclen, if_pos ((ctEq_iff _ _).mpr rfl)]

/-- The concrete primitive instance is well formed. -/
theorem P0_good : Good P0 := by
  refine ⟨?_, ?_, ?_, ?_, ?_⟩
  · intro a b
    simp [P0, Nat.mul_comm]
  · intro x
    simp only [P0, List.length_take, List.length_append, List.length_replicate,
      ECIES_KEY_LENGTH]
    omega
  · intro k d
    simp [P0]
  · intro k b h
    simpa [P0] using h
  · intro k b _
    rfl

/-- The concrete secret derived between the two concrete private keys. -/
theorem secret_spec : getECIESSecret P0 kS kR =
    ([Event.ecdh], Except.ok (List.replicate 32 15)) := by
  rfl

/-- The concrete secret derived in the reverse direction. -/
theorem secret_spec_rev : getECIESSecret P0 kR kS =
    ([Event.ecdh], Except.ok (List.replicate 32 15)) := by
  rfl

/-- C1: Round-trip — for every valid key pair where at least one side holds
a private scalar and every plaintext, encrypting from one side and
decrypting with the roles swapped recovers the original plaintext exactly. -/
theorem ecies_round_trip (P : Primitives) (hG : Good P) (a b : CKey)
    (ha : a.validFor P) (hb : b.validFor P)
    (hpa : a.pkey.isSome = true) (hpb : b.pkey.isSome = true)
    (hpriv : a.hasPriv = true ∨ b.hasPriv = true)
    (iv pt : Bytes) (hiv : iv.length = ECIES_ENC_BLK_SIZE) :
    ∃ ct : Bytes, (encryptECIES P a b iv pt).2 = Except.ok ct ∧
      (decryptECIES P b a ct).2 = Except.ok pt := by
  obtain ⟨s, _, hsab⟩ := getECIESSecret_ok P hG a b hpa hpb hpriv
  have hsba : getECIESSecret P b a = ([Event.ecdh], Except.ok s) := by
    rw [getECIESSecret_symm_aux P hG b a hb ha, hsab]
  refine ⟨iv ++ cbcEnc P.encB s iv (pad16 (makeHMAC P s pt ++ pt)), ?_, ?_⟩
  · rw [encryptECIES_eq P a b iv pt s hsab]
  · exact decryptECIES_of_encrypt P hG b a s iv pt hiv hsba

/-- Witness for C1 at the concrete keys, IV and a three-byte plaintext. -/
theorem ecies_round_trip_witness :
    ∃ ct : Bytes, (encryptECIES P0 kS kR iv0 [1, 2, 3]).2 = Except.ok ct ∧
      (decryptECIES P0 kR kS ct).2 = Except.ok [1, 2, 3] :=
  ecies_round_trip P0 P0_good kS kR rfl rfl rfl rfl (Or.inl rfl)
    iv0 [1, 2, 3] rfl

/-- C7: Shared-secret derivation is symmetric — for every valid key pair
with at least one private scalar, both orders of the keys derive the same
32-byte secret. -/
theorem secret_derivation_symmetric (P : Primitives) (hG : Good P)
    (a b : CKey) (ha : a.validFor P) (hb : b.validFor P)
    (hpa : a.pkey.isSome = true) (hpb : b.pkey.isSome = true)
    (hpriv : a.hasPriv = true ∨ b.hasPriv = true) :
    ∃ s : Bytes, s.length = ECIES_KEY_LENGTH ∧
      getECIESSecret P a b = ([Event.ecdh], Except.ok s) ∧
      getECIESSecret P b a = ([Event.ecdh], Except.ok s) := by
  obtain ⟨s, hlen, hab⟩ := getECIESSecret_ok P hG a b hpa hpb hpriv
  exact ⟨s, hlen, hab, by rw [getECIESSecret_symm_aux P hG b a hb ha, hab]⟩

/-- Witness for C7 at the concrete keys. -/
theorem secret_derivation_symmetric_witness :
    ∃ s : Bytes, s.length = ECIES_KEY_LENGTH ∧
      getECIESSecret P0 kS kR = ([Event.ecdh], Except.ok s) ∧
      getECIESSecret P0 kR kS = ([Event.ecdh], Except.ok s) :=
  secret_derivation_symmetric P0 P0_good kS kR rfl rfl rfl rfl (Or.inl rfl)

/-- C8: Missing-key rejection — whenever neither party holds a private
scalar, secret derivation, and hence encryption and decryption, fail with
an error of the MissingKeyError kind, before any primitive runs, and no
secret is produced. -/
theorem missing_private_key_rejected (P : Primitives) (a b : CKey)
    (hna : a.hasPriv = false) (hnb : b.hasPriv = false)
    (iv pt ct : Bytes) :
    ∃ e : Err, MissingKeyErrorKind e ∧
      getECIESSecret P a b = ([], Except.error e) ∧
      encryptECIES P a b iv pt = ([], Except.error e) ∧
      decryptECIES P a b ct = ([], Except.error e) := by
  have hsec : ∃ e : Err, MissingKeyErrorKind e ∧
      getECIESSecret P a b = ([], Except.error e) := by
    cases hka : a.pkey with
    | none =>
      exact ⟨Err.missingKey, Or.inl rfl, by simp [getECIESSecret, hka]⟩
    | some kpa =>
      cases hkb : b.pkey with
      | none =>
        exact ⟨Err.missingKey, Or.inl rfl, by simp [getECIESSecret, hka, hkb]⟩
      | some kpb =>
        cases hsa : kpa.privScalar with
        | some s => simp [CKey.hasPriv, hka, hsa] at hna
        | none =>
          cases hsb : kpb.privScalar with
          | some t => simp [CKey.hasPriv, hkb, hsb] at hnb
          | none =>
            exact ⟨Err.noPrivateKey, Or.inr rfl,
              by simp [getECIESSecret, hka, hkb, hsa, hsb]⟩
  obtain ⟨e, hkind, hsec⟩ := hsec
  exact ⟨e, hkind, hsec, by simp [encryptECIES, hsec],
    by simp [decryptECIES, hsec]⟩

/-- Witness for C8 at the concrete public-only keys. -/
theorem missing_private_key_rejected_witness :
    ∃ e : Err, MissingKeyErrorKind e ∧
      getECIESSecret P0 kPubS kPubR = ([], Except.error e) ∧
      encryptECIES P0 kPubS kPubR iv0 [] = ([], Except.error e) ∧
      decryptECIES P0 kPubS kPubR [] = ([], Except.error e) :=
  missing_private_key_rejected P0 kPubS kPubR rfl rfl iv0 [] []

/-- C9: Ciphertext length — for every plaintext the encryption succeeds on,
the ciphertext length is the block size for the IV plus sixteen times one
more than the floor of MAC size plus plaintext length over sixteen: a full
extra padding block is added even on block-aligned input. -/
theorem encrypt_ciphertext_length (P : Primitives) (hG : Good P) (a b : CKey)
    (hpa : a.pkey.isSome = true) (hpb : b.pkey.isSome = true)
    (hpriv : a.hasPriv = true ∨ b.hasPriv = true)
    (iv pt : Bytes) (hiv : iv.length = ECIES_ENC_BLK_SIZE) :
    ∃ ct : Bytes, (encryptECIES P a b iv pt).2 = Except.ok ct ∧
      ct.length = ECIES_ENC_BLK_SIZE +
        ECIES_ENC_BLK_SIZE *
          ((ECIES_HMAC_SIZE + pt.length) / ECIES_ENC_BLK_SIZE + 1) := by
  obtain ⟨s, _, hs⟩ := getECIESSecret_ok P hG a b hpa hpb hpriv
  exact encrypt_length_aux P hG a b iv pt s hs hiv

/-- Witness for C9 at the concrete keys and a 32-byte plaintext, where the
input is block-aligned and the mandatory padding block shows up. -/
theorem encrypt_ciphertext_length_witness :
    ∃ ct : Bytes, (encryptECIES P0 kS kR iv0 (List.replicate 32 7)).2 =
        Except.ok ct ∧
      ct.length = ECIES_ENC_BLK_SIZE +
        ECIES_ENC_BLK_SIZE *
          ((ECIES_HMAC_SIZE + (List.replicate 32 7 : Bytes).length) /
            ECIES_ENC_BLK_SIZE + 1) :=
  encrypt_ciphertext_length P0 P0_good kS kR rfl rfl (Or.inl rfl)
    iv0 (List.replicate 32 7) rfl

/-- C2 counterexample: encrypting the empty plaintext at the concrete keys
produces a 64-byte ciphertext, not 48 bytes: the empty plaintext costs the
16-byte IV, one encrypted 32-byte MAC span and one full 16-byte padding
block. -/
theorem encrypt_empty_not_48 :
    ∃ ct : Bytes, (encryptECIES P0 kS kR iv0 []).2 = Except.ok ct ∧
      ct.length = 64 ∧ ct.length ≠ 48 := by
  obtain ⟨ct, h1, h2⟩ := encrypt_length_aux P0 P0_good kS kR iv0 []
    (List.replicate 32 15) secret_spec rfl
  have h64 : ct.length = 64 := by
    simpa [ECIES_ENC_BLK_SIZE, ECIES_HMAC_SIZE] using h2
  exact ⟨ct, h1, h64, by rw [h64]; decide⟩

/-- C2 amended: the empty-plaintext ciphertext is exactly 64 bytes long,
and 64 bytes (IV, MAC span, mandatory padding block) is the minimum
envelope length encryption ever produces. -/
theorem encrypt_min_length (P : Primitives) (hG : Good P) (a b : CKey)
    (hpa : a.pkey.isSome = true) (hpb : b.pkey.isSome = true)
    (hpriv : a.hasPriv = true ∨ b.hasPriv = true)
    (iv : Bytes) (hiv : iv.length = ECIES_ENC_BLK_SIZE) :
    (∃ ct : Bytes, (encryptECIES P a b iv []).2 = Except.ok ct ∧
      ct.length = 2 * ECIES_ENC_BLK_SIZE + ECIES_HMAC_SIZE) ∧
    (∀ pt ct : Bytes, (encryptECIES P a b iv pt).2 = Except.ok ct →
      2 * ECIES_ENC_BLK_SIZE + ECIES_HMAC_SIZE ≤ ct.length) := by
  obtain ⟨s, _, hs⟩ := getECIESSecret_ok P hG a b hpa hpb hpriv
  constructor
  · obtain ⟨ct, h1, h2⟩ := encrypt_length_aux P hG a b iv [] s hs hiv
    refine ⟨ct, h1, ?_⟩
    rw [h2]
    simp [ECIES_ENC_BLK_SIZE, ECIES_HMAC_SIZE]
  · intro pt ct hct
    rw [encryptECIES_eq P a b iv pt s hs] at hct
    simp only [Except.ok.injEq] at hct
    subst hct
    rw [List.length_append, hiv,
      cbcEnc_length P.encB s (hG.encB_len s) _ iv (pad16_dvd _) hiv,
      pad16_length, List.length_append, makeHMAC_length P hG s pt]
    simp only [ECIES_ENC_BLK_SIZE, ECIES_HMAC_SIZE]
    omega

/-- Witness for the amended C2 at the concrete keys. -/
theorem encrypt_min_length_witness :
    (∃ ct : Bytes, (encryptECIES P0 kS kR iv0 []).2 = Except.ok ct ∧
      ct.length = 2 * ECIES_ENC_BLK_SIZE + ECIES_HMAC_SIZE) ∧
    (∀ pt ct : Bytes, (encryptECIES P0 kS kR iv0 pt).2 = Except.ok ct →
      2 * ECIES_ENC_BLK_SIZE + ECIES_HMAC_SIZE ≤ ct.length) :=
  encrypt_min_length P0 P0_good kS kR rfl rfl (Or.inl rfl) iv0 rfl

/-- C3 counterexample: on a 10-byte input the decrypt operation does fail
with the malformed-ciphertext error, but its primitive trace already
contains the Diffie-Hellman invocation, so a cryptographic primitive runs
before the length validation. -/
theorem decrypt_short_ran_primitive :
    decryptECIES P0 kR kS (List.replicate 10 0) =
      ([Event.ecdh], Except.error Err.ciphertextTooShort) ∧
    Event.ecdh ∈ (decryptECIES P0 kR kS (List.replicate 10 0)).1 := by
  refine ⟨rfl, ?_⟩
  rw [show (decryptECIES P0 kR kS (List.replicate 10 0)).1 = [Event.ecdh]
    from rfl]
  simp

/-- C3 amended: for every valid decrypt call on an input shorter than two
blocks plus the MAC size, decryption fails with the malformed-ciphertext
error and the cipher is never invoked — though the secret derivation has
already run. -/
theorem decrypt_short_rejected (P : Primitives) (hG : Good P) (a b : CKey)
    (hpa : a.pkey.isSome = true) (hpb : b.pkey.isSome = true)
    (hpriv : a.hasPriv = true ∨ b.hasPriv = true)
    (ct : Bytes)
    (hshort : ct.length < 2 * ECIES_ENC_BLK_SIZE + ECIES_HMAC_SIZE) :
    decryptECIES P a b ct =
      ([Event.ecdh], Except.error Err.ciphertextTooShort) ∧
    Event.cipherInit ∉ (decryptECIES P a b ct).1 ∧
    Event.cipherUpdate ∉ (decryptECIES P a b ct).1 ∧
    Event.cipherFinal ∉ (decryptECIES P a b ct).1 := by
  obtain ⟨s, _, hs⟩ := getECIESSecret_ok P hG a b hpa hpb hpriv
  have h := decryptECIES_short_path P a b ct s hs hshort
  refine ⟨h, ?_, ?_, ?_⟩ <;> rw [h] <;> decide

/-- Witness for the amended C3 at the concrete keys and a 10-byte input. -/
theorem decrypt_short_rejected_witness :
    decryptECIES P0 kS kR (List.replicate 10 0) =
      ([Event.ecdh], Except.error Err.ciphertextTooShort) ∧
    Event.cipherInit ∉ (decryptECIES P0 kS kR (List.replicate 10 0)).1 ∧
    Event.cipherUpdate ∉ (decryptECIES P0 kS kR (List.replicate 10 0)).1 ∧
    Event.cipherFinal ∉ (decryptECIES P0 kS kR (List.replicate 10 0)).1 :=
  decrypt_short_rejected P0 P0_good kS kR rfl rfl (Or.inl rfl)
    (List.replicate 10 0) (by decide)

/-- C5: After padding is stripped, the MAC is recomputed over the recovered
plaintext and compared against the decrypted MAC field by the constant-time
check; decryption fails with the bad-hmac authentication error exactly when
the two differ, and a plaintext is returned only when the comparison
succeeded, after the MAC computation. -/
theorem decrypt_mac_check (P : Primitives) (a b : CKey)
    (ct s stripped : Bytes)
    (hs : getECIESSecret P a b = ([Event.ecdh], Except.ok s))
    (hlen : ¬ (ct.length < 2 * ECIES_ENC_BLK_SIZE + ECIES_HMAC_SIZE))
    (hstr : (if (ct.drop ECIES_ENC_BLK_SIZE).length % ECIES_ENC_BLK_SIZE = 0
        then unpad16 (cbcDec P.decB s (ct.take ECIES_ENC_BLK_SIZE)
          (ct.drop ECIES_ENC_BLK_SIZE))
        else none) = some stripped) :
    ((decryptECIES P a b ct).2 = Except.error Err.badHmac ↔
      (cbcDec P.decB s (ct.take ECIES_ENC_BLK_SIZE)
        (ct.drop ECIES_ENC_BLK_SIZE)).take ECIES_HMAC_SIZE ≠
        makeHMAC P s (stripped.drop ECIES_HMAC_SIZE)) ∧
    (∀ pt : Bytes, (decryptECIES P a b ct).2 = Except.ok pt →
      pt = stripped.drop ECIES_HMAC_SIZE ∧
      (cbcDec P.decB s (ct.take ECIES_ENC_BLK_SIZE)
        (ct.drop ECIES_ENC_BLK_SIZE)).take ECIES_HMAC_SIZE =
        makeHMAC P s pt ∧
      Event.hmacCall ∈ (decryptECIES P a b ct).1) := by
  rw [decryptECIES_ok_path P a b ct s stripped hs hlen hstr]
  by_cases h : ctEq ((cbcDec P.decB s (ct.take ECIES_ENC_BLK_SIZE)
      (ct.drop ECIES_ENC_BLK_SIZE)).take ECIES_HMAC_SIZE)
      (makeHMAC P s (stripped.drop ECIES_HMAC_SIZE)) = true
  · have heq := (ctEq_iff _ _).mp h
    rw [if_pos h]
    constructor
    · simp [heq]
    · intro pt hpt
      simp only [Except.ok.injEq] at hpt
      subst hpt
      exact ⟨rfl, heq, by simp⟩
  · rw [if_neg h]
    refine ⟨⟨fun _ hcontra => h ((ctEq_iff _ _).mpr hcontra),
      fun _ => rfl⟩, ?_⟩
    intro pt hpt
    simp at hpt

/-- Witness for C5 at the concrete keys and a crafted 64-byte ciphertext
with valid padding. -/
theorem decrypt_mac_check_witness :
    ((decryptECIES P0 kS kR (List.replicate 63 0 ++ [1])).2 =
        Except.error Err.badHmac ↔
      (cbcDec P0.decB (List.replicate 32 15)
        ((List.replicate 63 0 ++ [1] : Bytes).take ECIES_ENC_BLK_SIZE)
        ((List.replicate 63 0 ++ [1] : Bytes).drop
          ECIES_ENC_BLK_SIZE)).take ECIES_HMAC_SIZE ≠
        makeHMAC P0 (List.replicate 32 15)
          ((List.replicate 47 0 : Bytes).drop ECIES_HMAC_SIZE)) ∧
    (∀ pt : Bytes,
      (decryptECIES P0 kS kR (List.replicate 63 0 ++ [1])).2 =
        Except.ok pt →
      pt = (List.replicate 47 0 : Bytes).drop ECIES_HMAC_SIZE ∧
      (cbcDec P0.decB (List.replicate 32 15)
        ((List.replicate 63 0 ++ [1] : Bytes).take ECIES_ENC_BLK_SIZE)
        ((List.replicate 63 0 ++ [1] : Bytes).drop
          ECIES_ENC_BLK_SIZE)).take ECIES_HMAC_SIZE =
        makeHMAC P0 (List.replicate 32 15) pt ∧
      Event.hmacCall ∈
        (decryptECIES P0 kS kR (List.replicate 63 0 ++ [1])).1) :=
  decrypt_mac_check P0 kS kR (List.replicate 63 0 ++ [1])
    (List.replicate 32 15) (List.replicate 47 0) secret_spec
    (by decide) (by rfl)

/-- C6: Padding validity is checked before the MAC comparison: on every
sufficiently long ciphertext whose decryption carries invalid padding,
decryption fails with the bad-padding error and no MAC computation is ever
reached. -/
theorem decrypt_padding_before_mac (P : Primitives) (a b : CKey)
    (ct s : Bytes)
    (hs : getECIESSecret P a b = ([Event.ecdh], Except.ok s))
    (hlen : ¬ (ct.length < 2 * ECIES_ENC_BLK_SIZE + ECIES_HMAC_SIZE))
    (hbad : (if (ct.drop ECIES_ENC_BLK_SIZE).length % ECIES_ENC_BLK_SIZE = 0
        then unpad16 (cbcDec P.decB s (ct.take ECIES_ENC_BLK_SIZE)
          (ct.drop ECIES_ENC_BLK_SIZE))
        else none) = none) :
    decryptECIES P a b ct =
      ([Event.ecdh, Event.cipherInit, Event.cipherUpdate, Event.cipherUpdate,
        Event.cipherFinal], Except.error Err.badPadding) ∧
    Event.hmacCall ∉ (decryptECIES P a b ct).1 := by
  have h := decryptECIES_badPadding_path P a b ct s hs hlen hbad
  refine ⟨h, ?_⟩
  rw [h]
  decide

/-- Witness for C6 at the concrete keys and a 65-byte input whose body is
not block-aligned, which the cipher finalization rejects. -/
theorem decrypt_padding_before_mac_witness :
    decryptECIES P0 kS kR (List.replicate 65 0) =
      ([Event.ecdh, Event.cipherInit, Event.cipherUpdate, Event.cipherUpdate,
        Event.cipherFinal], Except.error Err.badPadding) ∧
    Event.hmacCall ∉ (decryptECIES P0 kS kR (List.replicate 65 0)).1 :=
  decrypt_padding_before_mac P0 kS kR (List.replicate 65 0)
    (List.replicate 32 15) secret_spec (by decide) (by rfl)

end ECIES
